import Mathlib

/-!
Verification of the segment orchestrator of a segmented, wheel-factorized (mod 30)
sieve of Eratosthenes, shallowly embedded from `src/src/soe/SieveOfEratosthenes.cpp`.

Buffers are lists of byte values; a byte stands for a block of 30 integers, its
8 bits standing for the offsets `{7, 11, 13, 17, 19, 23, 29, 31}` coprime to 30.
Collaborators that are out of scope (the pre-sieve pattern generator `PreSieve`
and the three tier crossing-off engines `EratSmall`/`EratMedium`/`EratBig`) are
modelled as function parameters constrained by their contracts, or, for tier
construction, by a behaviour record giving each constructor's outcome and each
constructed tier's effective limit.
-/

namespace soe

/-- `NUMBERS_PER_BYTE` from SieveOfEratosthenes.h: each byte spans 30 integers. -/
def NUMBERS_PER_BYTE : ℕ := 30

/-- `SieveOfEratosthenes::bitValues_`: the numeric offset, within a 30-wide block,
represented by each of the 8 bits of a sieve byte. -/
def bitValuesList : List ℕ := [7, 11, 13, 17, 19, 23, 29, 31]

/-- Offset of bit `i` of a sieve byte, relative to the byte's block base. -/
def bitValues (i : Fin 8) : ℕ := bitValuesList.getD i.val 0

/-- `SieveOfEratosthenes::getByteRemainder`: position of `n` within its 30-block,
with remainders 0 and 1 folded upward by 30. -/
def getByteRemainder (n : ℕ) : ℕ :=
  let remainder := n % NUMBERS_PER_BYTE
  if remainder ≤ 1 then remainder + NUMBERS_PER_BYTE else remainder

/-- Modelled from the spec: the integer square root helper `isqrt` of imath.h is
not under src/; the spec describes it as the integer square root. -/
def isqrt (n : ℕ) : ℕ := Nat.sqrt n

/-- Modelled from the spec: the power-of-two normalization helper `floorPowerOf2`
of imath.h is not under src/; following its name and the spec's
"power-of-two rounding", it rounds a positive value down to a power of two. -/
def floorPowerOf2 (n : ℕ) : ℕ := if n = 0 then 0 else 2 ^ Nat.log2 n

/-- Modelled from the spec: the clamping helper `getInBetween` of imath.h is not
under src/; it clamps `n` into `[lo, hi]`. -/
def getInBetween (lo n hi : ℕ) : ℕ := if n < lo then lo else if hi < n then hi else n

/-- The constructor's sieve-size normalization:
`getInBetween(1, floorPowerOf2(sieveSize), 4096)` kilobytes, converted to bytes. -/
def sieveSizeBytes (sieveSize : ℕ) : ℕ :=
  getInBetween 1 (floorPowerOf2 sieveSize) 4096 * 1024

/-! ### Segment window -/

/-- The orchestrator's segment window: `segmentLow_`, `segmentHigh_`, `sieveSize_`
(the latter in bytes). -/
structure SegState where
  segmentLow : ℕ
  segmentHigh : ℕ
  sieveSize : ℕ
deriving Repr, DecidableEq

/-- Window state right after construction:
`segmentLow_ = start - getByteRemainder(start)`,
`segmentHigh_ = segmentLow_ + sieveSize_ * NUMBERS_PER_BYTE + 1`. -/
def initialState (start sieveSize : ℕ) : SegState :=
  let segmentLow := start - getByteRemainder start
  ⟨segmentLow, segmentLow + sieveSize * NUMBERS_PER_BYTE + 1, sieveSize⟩

/-- One full-segment advance in `finish`: both bounds move by
`sieveSize_ * NUMBERS_PER_BYTE`. -/
def advanceSeg (st : SegState) : SegState :=
  ⟨st.segmentLow + st.sieveSize * NUMBERS_PER_BYTE,
   st.segmentHigh + st.sieveSize * NUMBERS_PER_BYTE,
   st.sieveSize⟩

/-- The final-segment resize in `finish`:
`sieveSize_ = ((stop - remainder) - segmentLow_) / NUMBERS_PER_BYTE + 1`,
`segmentHigh_` recomputed from it. -/
def finalResize (stop : ℕ) (st : SegState) : SegState :=
  let remainder := getByteRemainder stop
  let sz := ((stop - remainder) - st.segmentLow) / NUMBERS_PER_BYTE + 1
  ⟨st.segmentLow, st.segmentLow + sz * NUMBERS_PER_BYTE + 1, sz⟩

/-- The segment-window invariant of the data model. -/
def windowInvariant (st : SegState) : Prop :=
  st.segmentHigh = st.segmentLow + st.sieveSize * NUMBERS_PER_BYTE + 1

/-- The `while (segmentHigh_ < stop_)` loop of `finish`: returns the states at
which full segments are sieved, and the state the loop exits with.  The loop
body advances the window by one full stride.  (The extra `0 < sieveSize`
guard only rules out the stuck zero-stride window, which construction makes
unreachable: the byte size is always at least 1024.) -/
def runFull (stop : ℕ) (st : SegState) : List SegState × SegState :=
  if h : st.segmentHigh < stop ∧ 0 < st.sieveSize then
    let r := runFull stop (advanceSeg st)
    (st :: r.1, r.2)
  else
    ([], st)
termination_by stop - st.segmentHigh
decreasing_by
  simp only [advanceSeg, NUMBERS_PER_BYTE]
  omega

/-! ### Sieve buffer and per-segment pipeline

A buffer is a list of byte values.  The pre-sieve collaborator's `doIt` and the
combined tier cascade `crossOffMultiples` are abstract functions: `doIt low len`
overwrites the buffer with the pattern for the segment whose first byte has
numeric offset `low`, and `crossOff low len buf` is the in-place crossing-off
pass of all constructed tiers over that segment. -/

abbrev Buffer := List ℕ

/-- Result of the loop `while (bitValues_[i] < remainder) i++;` in
`SieveOfEratosthenes::preSieve`: first index whose offset reaches `remainder`. -/
def lowMaskIdx (remainder : ℕ) : ℕ :=
  bitValuesList.findIdx (fun v => decide (remainder ≤ v))

/-- Result of the loop `for (i = 0; i < 8; i++) if (bitValues_[i] > remainder) break;`
in `SieveOfEratosthenes::finish`: first index whose offset exceeds `remainder`
(8 when the loop exhausts). -/
def upMaskIdx (remainder : ℕ) : ℕ :=
  bitValuesList.findIdx (fun v => decide (remainder < v))

/-- `SieveOfEratosthenes::preSieve`: fill the buffer with the pre-sieve pattern;
then, if the segment reaches down to `start`, reset the first byte to 0xff when
`start` is at most the pre-sieve limit, and clear the bits of the first byte
that stand for numbers below `start`. -/
def preSieveStep (doIt : ℕ → ℕ → Buffer) (preSieveLimit start : ℕ) (st : SegState) : Buffer :=
  let sieve := doIt st.segmentLow st.sieveSize
  if st.segmentLow ≤ start then
    let sieve1 := if start ≤ preSieveLimit then sieve.set 0 255 else sieve
    let i := lowMaskIdx (getByteRemainder start)
    sieve1.set 0 ((sieve1.getD 0 0) &&& (255 <<< i))
  else sieve

/-- The buffer handed to `segmentProcessed` by `SieveOfEratosthenes::sieveSegment`:
pre-sieve, then the tier cascade. -/
def sieveSegmentBuf (doIt : ℕ → ℕ → Buffer) (crossOff : ℕ → ℕ → Buffer → Buffer)
    (preSieveLimit start : ℕ) (st : SegState) : Buffer :=
  crossOff st.segmentLow st.sieveSize (preSieveStep doIt preSieveLimit start st)

/-- One emission through `segmentProcessed(sieve_, sieveSize_)`: the segment's
low bound, the byte length passed along, and the buffer contents. -/
structure Emit where
  low : ℕ
  len : ℕ
  buf : Buffer

/-- Number of zero padding bytes `finish` writes after the final segment
(`for (j = sieveSize_; j % 8 != 0; j++) sieve_[j] = 0`). -/
def padLen (sz : ℕ) : ℕ := (8 - sz % 8) % 8

/-- The final segment's buffer before the upper-bound mask is applied. -/
def finalPreMask (doIt : ℕ → ℕ → Buffer) (crossOff : ℕ → ℕ → Buffer → Buffer)
    (preSieveLimit start stop : ℕ) (st0 : SegState) : Buffer :=
  sieveSegmentBuf doIt crossOff preSieveLimit start (finalResize stop (runFull stop st0).2)

/-- The final segment `finish` emits: after the last-segment resize, pre-sieve
and cascade run again, the last meaningful byte is masked by
`~(0xff << i)` (as stored into a byte), and zero bytes pad up to the next
multiple of 8. -/
def finalEmit (doIt : ℕ → ℕ → Buffer) (crossOff : ℕ → ℕ → Buffer → Buffer)
    (preSieveLimit start stop : ℕ) (st0 : SegState) : Emit :=
  let fst := finalResize stop (runFull stop st0).2
  let remainder := getByteRemainder stop
  let i := upMaskIdx remainder
  let buf := finalPreMask doIt crossOff preSieveLimit start stop st0
  let buf2 := buf.set (fst.sieveSize - 1)
    ((buf.getD (fst.sieveSize - 1) 0) &&& (255 ^^^ ((255 <<< i) &&& 255)))
  ⟨fst.segmentLow, fst.sieveSize, buf2 ++ List.replicate (padLen fst.sieveSize) 0⟩

/-- All segments emitted when `finish` drains the range from window state `st0`:
the remaining full segments, then the final one. -/
def finishEmits (doIt : ℕ → ℕ → Buffer) (crossOff : ℕ → ℕ → Buffer → Buffer)
    (preSieveLimit start stop : ℕ) (st0 : SegState) : List Emit :=
  ((runFull stop st0).1.map fun u =>
    ⟨u.segmentLow, u.sieveSize, sieveSegmentBuf doIt crossOff preSieveLimit start u⟩)
  ++ [finalEmit doIt crossOff preSieveLimit start stop st0]

/-- `n` is still a candidate in emitted segment `e`: some in-range byte and bit
of `e` stand for `n` and that bit is set. -/
def isCandidate (e : Emit) (n : ℕ) : Prop :=
  ∃ b < e.len, ∃ i : Fin 8,
    n = e.low + b * NUMBERS_PER_BYTE + bitValues i ∧ (e.buf.getD b 0).testBit i.val = true

/-- `n` is a composite with a prime factor in the band `(lo, hi]` — the numbers a
collaborator owning that band must cross off. -/
def bandComposite (lo hi n : ℕ) : Prop :=
  ¬ n.Prime ∧ ∃ p ∈ Finset.Ioc lo hi, p.Prime ∧ p ∣ n

instance (lo hi n : ℕ) : Decidable (bandComposite lo hi n) := by
  unfold bandComposite; infer_instance

/-! ### Tier cascade construction and orchestrator constructor

Tier objects live behind owning raw pointers; we track allocations explicitly so
that the constructor's cleanup behaviour is observable.  The tier constructors
and their effective limits (`getLimit()`) belong to the out-of-scope
collaborators, so a `TierBehavior` record supplies each constructor's outcome
(modelled from the spec: a tier constructor may fail with a resource error) and
each constructed tier's effective limit. -/

/-- Heap-allocation bookkeeping: ids of live allocations and the next fresh id. -/
structure AllocState where
  live : List ℕ
  next : ℕ
deriving Repr, DecidableEq

/-- `new`: records a fresh live allocation. -/
def allocate (s : AllocState) : AllocState × ℕ :=
  (⟨s.next :: s.live, s.next + 1⟩, s.next)

/-- `delete`: releases an owned allocation; deleting a null pointer is a no-op. -/
def release (id : Option ℕ) (s : AllocState) : AllocState :=
  match id with
  | none => s
  | some i => ⟨s.live.erase i, s.next⟩

/-- The three owned tier pointers `eratSmall_`, `eratMedium_`, `eratBig_`
(`none` = NULL). -/
structure Tiers where
  eratSmall : Option ℕ
  eratMedium : Option ℕ
  eratBig : Option ℕ
deriving Repr, DecidableEq

/-- Modelled from the spec: outcomes of the out-of-scope tier collaborators'
constructors (`EratSmall`, `EratMedium`, `EratBig` are not under src/) — whether
each constructor fails, and the effective `getLimit()` of each constructed tier. -/
structure TierBehavior where
  esFails : Bool
  esLimit : ℕ
  emFails : Bool
  emLimit : ℕ
  ebFails : Bool
deriving Repr, DecidableEq

/-- `SieveOfEratosthenes::initEratAlgorithms`: cascading conditional construction
of the tiers inside a try block whose catch handler deletes all three pointers
and rethrows. -/
def initEratAlgorithms (sqrtStop preSieveLimit : ℕ) (b : TierBehavior) (s0 : AllocState) :
    AllocState × Except Unit Tiers :=
  if preSieveLimit < sqrtStop then
    if b.esFails then
      -- EratSmall's constructor throws: all three pointers are still NULL.
      (s0, Except.error ())
    else
      let p1 := allocate s0
      if b.esLimit < sqrtStop then
        if b.emFails then
          -- EratMedium's constructor throws: delete eratSmall_.
          (release (some p1.2) p1.1, Except.error ())
        else
          let p2 := allocate p1.1
          if b.emLimit < sqrtStop then
            if b.ebFails then
              -- EratBig's constructor throws: delete eratSmall_ and eratMedium_.
              (release (some p2.2) (release (some p1.2) p2.1), Except.error ())
            else
              let p3 := allocate p2.1
              (p3.1, Except.ok ⟨some p1.2, some p2.2, some p3.2⟩)
          else (p2.1, Except.ok ⟨some p1.2, some p2.2, none⟩)
      else (p1.1, Except.ok ⟨some p1.2, none, none⟩)
  else (s0, Except.ok ⟨none, none, none⟩)

/-- Errors the constructor can surface. -/
inductive CtorError
  | config (msg : String)
  | resource
deriving Repr, DecidableEq

/-- The orchestrator's state after successful construction. -/
structure SieveOfEratosthenes where
  start : ℕ
  stop : ℕ
  sqrtStop : ℕ
  preSieveLimit : ℕ
  sieveSize : ℕ
  segmentLow : ℕ
  segmentHigh : ℕ
  tiers : Tiers
  sieveAlloc : ℕ
deriving Repr, DecidableEq

/-- `SieveOfEratosthenes::SieveOfEratosthenes`: validates `start >= 7` and
`start <= stop` (throwing a configuration error), normalizes the sieve size,
derives the initial window, builds the tier cascade, then allocates the sieve
array. -/
def ctor (start stop sieveSize preSieveLimit : ℕ) (b : TierBehavior) (s : AllocState) :
    AllocState × Except CtorError SieveOfEratosthenes :=
  if start < 7 then
    (s, Except.error (CtorError.config "SieveOfEratosthenes: start must be >= 7"))
  else if stop < start then
    (s, Except.error (CtorError.config "SieveOfEratosthenes: start must be <= stop"))
  else
    let szB := sieveSizeBytes sieveSize
    let segmentLow := start - getByteRemainder start
    let segmentHigh := segmentLow + szB * NUMBERS_PER_BYTE + 1
    match initEratAlgorithms (isqrt stop) preSieveLimit b s with
    | (s1, Except.error _) => (s1, Except.error CtorError.resource)
    | (s1, Except.ok tiers) =>
      let p := allocate s1
      (p.1, Except.ok ⟨start, stop, isqrt stop, preSieveLimit, szB, segmentLow, segmentHigh,
        tiers, p.2⟩)

/-! ### Concrete collaborator instances

Used to exhibit inputs satisfying the collaborator contracts. -/

/-- Build a byte from its 8 bits. -/
def byteOfPred (p : Fin 8 → Bool) : ℕ :=
  ∑ i : Fin 8, if p i then 2 ^ i.val else 0

/-- A pre-sieve collaborator honouring its contract: the bit of a number is set
iff the number is not a composite with a prime factor at most `limit`. -/
def doItPattern (limit : ℕ) : ℕ → ℕ → Buffer := fun low n =>
  (List.range n).map fun b =>
    byteOfPred fun i => decide (¬ bandComposite 0 limit (low + b * NUMBERS_PER_BYTE + bitValues i))

/-- A pre-sieve collaborator writing an all-ones pattern. -/
def doItOnes : ℕ → ℕ → Buffer := fun _ n => List.replicate n 255

/-- The crossing-off cascade of an empty tier band: crosses off nothing. -/
def crossOffId : ℕ → ℕ → Buffer → Buffer := fun _ _ buf => buf

/-! ## Arithmetic helper lemmas -/

theorem gBR_def (n : ℕ) :
    getByteRemainder n = if n % 30 ≤ 1 then n % 30 + 30 else n % 30 := by
  simp [getByteRemainder, NUMBERS_PER_BYTE]

theorem gBR_bounds (n : ℕ) : 2 ≤ getByteRemainder n ∧ getByteRemainder n ≤ 31 := by
  rw [gBR_def]; split <;> omega

theorem gBR_le (n : ℕ) (h : 2 ≤ n) : getByteRemainder n ≤ n := by
  rw [gBR_def]; split <;> omega

theorem sub_gBR (n : ℕ) (h : 2 ≤ n) : n - getByteRemainder n = 30 * ((n - 2) / 30) := by
  rw [gBR_def]; split <;> omega

theorem sub_gBR_mod (n : ℕ) (h : 2 ≤ n) : (n - getByteRemainder n) % 30 = 0 := by
  rw [sub_gBR n h]; omega

theorem mult30_le_sub_gBR (m n : ℕ) (hm : m % 30 = 0) (h2 : 2 ≤ n) (hle : m ≤ n - 2) :
    m ≤ n - getByteRemainder n := by
  rw [sub_gBR n h2]; omega

theorem bitValues_bounds : ∀ i : Fin 8, 7 ≤ bitValues i ∧ bitValues i ≤ 31 := by decide

theorem bitValues_prime : ∀ i : Fin 8, (bitValues i).Prime := by decide

theorem bitValues_coprime30 : ∀ i : Fin 8, Nat.Coprime (bitValues i) 30 := by decide

theorem gBR_add_offset (m : ℕ) (hm : m % 30 = 0) (i : Fin 8) :
    getByteRemainder (m + bitValues i) = bitValues i := by
  rw [gBR_def]
  have h30 : (m + bitValues i) % 30 = bitValues i % 30 := by omega
  rw [h30]
  fin_cases i <;> decide

theorem residue_offset : ∀ r < 30, Nat.gcd r 30 = 1 →
    ∃ i : Fin 8, (if r ≤ 1 then r + 30 else r) = bitValues i := by decide

theorem gBR_offset_of_coprime (n : ℕ) (h : Nat.Coprime n 30) :
    ∃ i : Fin 8, getByteRemainder n = bitValues i := by
  have h1 : Nat.gcd (n % 30) 30 = 1 := by
    have h2 : Nat.gcd 30 n = 1 := Nat.coprime_comm.mp h
    rwa [Nat.gcd_rec 30 n] at h2
  have h3 := residue_offset (n % 30) (Nat.mod_lt _ (by norm_num)) h1
  rwa [gBR_def]

theorem prime_coprime30 (n : ℕ) (hp : n.Prime) (h7 : 7 ≤ n) : Nat.Coprime n 30 := by
  have h2 : ¬ (2 ∣ n) := fun hd => by
    have := (Nat.prime_dvd_prime_iff_eq Nat.prime_two hp).mp hd; omega
  have h3 : ¬ (3 ∣ n) := fun hd => by
    have := (Nat.prime_dvd_prime_iff_eq Nat.prime_three hp).mp hd; omega
  have h5 : ¬ (5 ∣ n) := fun hd => by
    have := (Nat.prime_dvd_prime_iff_eq (by norm_num) hp).mp hd; omega
  have c2 : Nat.Coprime 2 n := (Nat.Prime.coprime_iff_not_dvd Nat.prime_two).mpr h2
  have c3 : Nat.Coprime 3 n := (Nat.Prime.coprime_iff_not_dvd Nat.prime_three).mpr h3
  have c5 : Nat.Coprime 5 n := (Nat.Prime.coprime_iff_not_dvd (by norm_num)).mpr h5
  have c30 : Nat.Coprime 30 n := by
    have h30 := Nat.Coprime.mul c2 (Nat.Coprime.mul c3 c5)
    norm_num at h30
    exact h30
  exact Nat.coprime_comm.mp c30

theorem coprime30_decompose (q v : ℕ) (hv : Nat.Coprime v 30) :
    Nat.Coprime (30 * q + v) 30 := by
  rw [Nat.add_comm]
  exact (Nat.coprime_add_mul_left_left v 30 q).mpr hv

theorem bandComposite_empty (lo hi n : ℕ) (h : hi ≤ lo) : ¬ bandComposite lo hi n := by
  rintro ⟨-, p, hmem, -, -⟩
  have := Finset.mem_Ioc.mp hmem
  omega

theorem composite_has_band_factor (L stop n : ℕ) (h7 : 7 ≤ n) (hstop : n ≤ stop)
    (hnp : ¬ n.Prime) :
    bandComposite 0 L n ∨ bandComposite L (isqrt stop) n := by
  have h1 : n ≠ 1 := by omega
  have hp : (Nat.minFac n).Prime := Nat.minFac_prime h1
  have hd : Nat.minFac n ∣ n := Nat.minFac_dvd n
  have hsq : Nat.minFac n ^ 2 ≤ n := Nat.minFac_sq_le_self (by omega) hnp
  have hle : Nat.minFac n ≤ Nat.sqrt n := by
    rw [Nat.le_sqrt]
    calc Nat.minFac n * Nat.minFac n = Nat.minFac n ^ 2 := (sq (Nat.minFac n)).symm
    _ ≤ n := hsq
  have hle2 : Nat.minFac n ≤ isqrt stop := le_trans hle (Nat.sqrt_le_sqrt hstop)
  by_cases hcase : Nat.minFac n ≤ L
  · exact Or.inl ⟨hnp, Nat.minFac n, Finset.mem_Ioc.mpr ⟨hp.pos, hcase⟩, hp, hd⟩
  · exact Or.inr ⟨hnp, Nat.minFac n, Finset.mem_Ioc.mpr ⟨by omega, hle2⟩, hp, hd⟩

theorem prime_of_no_band (L stop n : ℕ) (h7 : 7 ≤ n) (hstop : n ≤ stop)
    (hb1 : ¬ bandComposite 0 L n) (hb2 : ¬ bandComposite L (isqrt stop) n) : n.Prime := by
  by_contra hnp
  rcases composite_has_band_factor L stop n h7 hstop hnp with h | h
  · exact hb1 h
  · exact hb2 h

/-! ## Byte, bit and list helper lemmas -/

theorem shift_mask_testBit : ∀ k ≤ 8, ∀ i < 8, ((255 : ℕ) <<< k).testBit i = decide (k ≤ i) := by
  decide

theorem upmask_testBit : ∀ k ≤ 8, ∀ i < 8,
    ((255 : ℕ) ^^^ ((255 <<< k) &&& 255)).testBit i = decide (i < k) := by
  decide

theorem testBit_255 : ∀ i < 8, (255 : ℕ).testBit i = true := by decide

theorem lowMaskIdx_spec : ∀ r < 32, ∀ i : Fin 8, (lowMaskIdx r ≤ i.val ↔ r ≤ bitValues i) := by
  decide

theorem upMaskIdx_spec : ∀ r < 32, ∀ i : Fin 8, (i.val < upMaskIdx r ↔ bitValues i ≤ r) := by
  decide

theorem lowMaskIdx_le8 : ∀ r < 32, lowMaskIdx r ≤ 8 := by decide

theorem upMaskIdx_le8 : ∀ r < 32, upMaskIdx r ≤ 8 := by decide

set_option maxRecDepth 4096 in
theorem byteOfPred_testBit : ∀ p : Fin 8 → Bool, ∀ i : Fin 8,
    (byteOfPred p).testBit i.val = p i := by
  decide

theorem getD_set_self (l : List ℕ) (j v : ℕ) (h : j < l.length) :
    (l.set j v).getD j 0 = v := by
  induction l generalizing j with
  | nil => simp at h
  | cons a t ih =>
    cases j with
    | zero => rfl
    | succ k =>
      simp only [List.set, List.getD, List.length_cons] at *
      exact ih k (by omega)

theorem getD_set_other (l : List ℕ) (j b v : ℕ) (h : j ≠ b) :
    (l.set j v).getD b 0 = l.getD b 0 := by
  induction l generalizing j b with
  | nil => rfl
  | cons a t ih =>
    cases j with
    | zero =>
      cases b with
      | zero => omega
      | succ c => rfl
    | succ k =>
      cases b with
      | zero => rfl
      | succ c =>
        simp only [List.set, List.getD] at *
        exact ih k c (by omega)

theorem getD_append_left (l m : List ℕ) (b : ℕ) (h : b < l.length) :
    (l ++ m).getD b 0 = l.getD b 0 := by
  induction l generalizing b with
  | nil => simp at h
  | cons a t ih =>
    cases b with
    | zero => rfl
    | succ c =>
      simp only [List.cons_append, List.getD, List.length_cons] at *
      exact ih c (by omega)

theorem getD_append_right (l m : List ℕ) (b : ℕ) (h : l.length ≤ b) :
    (l ++ m).getD b 0 = m.getD (b - l.length) 0 := by
  induction l generalizing b with
  | nil => simp
  | cons a t ih =>
    cases b with
    | zero => simp at h
    | succ c =>
      show (t ++ m).getD c 0 = _
      rw [ih c (by simpa using h)]
      congr 1
      simp only [List.length_cons]
      omega

theorem getD_replicate_zero (k j : ℕ) : (List.replicate k (0 : ℕ)).getD j 0 = 0 := by
  induction k generalizing j with
  | zero => rfl
  | succ k ih =>
    cases j with
    | zero => rfl
    | succ c => exact ih c

/-! ## The finish loop: invariants of `runFull` -/

theorem runFull_eq (stop : ℕ) (st : SegState) :
    runFull stop st =
      if st.segmentHigh < stop ∧ 0 < st.sieveSize then
        (st :: (runFull stop (advanceSeg st)).1, (runFull stop (advanceSeg st)).2)
      else ([], st) := by
  rw [runFull]
  by_cases h : st.segmentHigh < stop ∧ 0 < st.sieveSize
  · rw [dif_pos h, if_pos h]
  · rw [dif_neg h, if_neg h]

theorem runFull_rec (stop : ℕ) (P : SegState → List SegState × SegState → Prop)
    (hstep : ∀ st : SegState, st.segmentHigh < stop → 0 < st.sieveSize →
      P (advanceSeg st) (runFull stop (advanceSeg st)) →
      P st (st :: (runFull stop (advanceSeg st)).1, (runFull stop (advanceSeg st)).2))
    (hbase : ∀ st : SegState, ¬(st.segmentHigh < stop ∧ 0 < st.sieveSize) → P st ([], st)) :
    ∀ st, P st (runFull stop st) := by
  have key : ∀ k (st : SegState), stop - st.segmentHigh ≤ k → P st (runFull stop st) := by
    intro k
    induction k with
    | zero =>
      intro st hk
      rw [runFull_eq]
      have hc : ¬(st.segmentHigh < stop ∧ 0 < st.sieveSize) := by omega
      rw [if_neg hc]
      exact hbase st hc
    | succ k ih =>
      intro st hk
      rw [runFull_eq]
      by_cases hc : st.segmentHigh < stop ∧ 0 < st.sieveSize
      · rw [if_pos hc]
        refine hstep st hc.1 hc.2 (ih _ ?_)
        simp only [advanceSeg, NUMBERS_PER_BYTE]
        omega
      · rw [if_neg hc]
        exact hbase st hc
  intro st
  exact key (stop - st.segmentHigh) st le_rfl

theorem advanceSeg_size (st : SegState) : (advanceSeg st).sieveSize = st.sieveSize := rfl

theorem runFull_sizes (stop : ℕ) (st : SegState) :
    (runFull stop st).2.sieveSize = st.sieveSize
    ∧ ∀ u ∈ (runFull stop st).1, u.sieveSize = st.sieveSize := by
  refine runFull_rec stop
    (fun st r => r.2.sieveSize = st.sieveSize ∧ ∀ u ∈ r.1, u.sieveSize = st.sieveSize)
    ?_ ?_ st
  · intro st h1 h2 ih
    refine ⟨ih.1, ?_⟩
    intro u hu
    rcases List.mem_cons.mp hu with rfl | hu
    · rfl
    · exact ih.2 u hu
  · intro st h
    exact ⟨rfl, by simp⟩

theorem runFull_exit (stop : ℕ) (st : SegState) (hsz : 0 < st.sieveSize) :
    stop ≤ (runFull stop st).2.segmentHigh := by
  refine runFull_rec stop (fun st r => 0 < st.sieveSize → stop ≤ r.2.segmentHigh) ?_ ?_ st hsz
  · intro st h1 h2 ih _
    exact ih h2
  · intro st h hpos
    show stop ≤ st.segmentHigh
    omega

theorem runFull_inv (stop : ℕ) (st : SegState) (hinv : windowInvariant st) :
    (∀ u ∈ (runFull stop st).1, windowInvariant u) ∧ windowInvariant (runFull stop st).2 := by
  refine runFull_rec stop
    (fun st r => windowInvariant st → (∀ u ∈ r.1, windowInvariant u) ∧ windowInvariant r.2)
    ?_ ?_ st hinv
  · intro st h1 h2 ih hi
    have hadv : windowInvariant (advanceSeg st) := by
      simp only [windowInvariant, advanceSeg, NUMBERS_PER_BYTE] at hi ⊢
      omega
    refine ⟨?_, (ih hadv).2⟩
    intro u hu
    rcases List.mem_cons.mp hu with rfl | hu
    · exact hi
    · exact (ih hadv).1 u hu
  · intro st h hi
    exact ⟨by simp, hi⟩

theorem runFull_mod30 (stop : ℕ) (st : SegState) (hm : st.segmentLow % 30 = 0) :
    (∀ u ∈ (runFull stop st).1, u.segmentLow % 30 = 0)
    ∧ (runFull stop st).2.segmentLow % 30 = 0 := by
  refine runFull_rec stop
    (fun st r => st.segmentLow % 30 = 0 →
      (∀ u ∈ r.1, u.segmentLow % 30 = 0) ∧ r.2.segmentLow % 30 = 0)
    ?_ ?_ st hm
  · intro st h1 h2 ih hi
    have hadv : (advanceSeg st).segmentLow % 30 = 0 := by
      simp only [advanceSeg, NUMBERS_PER_BYTE]
      omega
    refine ⟨?_, (ih hadv).2⟩
    intro u hu
    rcases List.mem_cons.mp hu with rfl | hu
    · exact hi
    · exact (ih hadv).1 u hu
  · intro st h hi
    exact ⟨by simp, hi⟩

theorem runFull_mem_high (stop : ℕ) (st : SegState) :
    ∀ u ∈ (runFull stop st).1, u.segmentHigh < stop := by
  refine runFull_rec stop (fun _ r => ∀ u ∈ r.1, u.segmentHigh < stop) ?_ ?_ st
  · intro st h1 h2 ih u hu
    rcases List.mem_cons.mp hu with rfl | hu
    · exact h1
    · exact ih u hu
  · intro st h
    simp

theorem runFull_first_or_far (stop : ℕ) (st : SegState) :
    (∀ u ∈ (runFull stop st).1,
      u.segmentLow = st.segmentLow ∨ st.segmentLow + st.sieveSize * 30 ≤ u.segmentLow)
    ∧ ((runFull stop st).2.segmentLow = st.segmentLow
       ∨ st.segmentLow + st.sieveSize * 30 ≤ (runFull stop st).2.segmentLow) := by
  refine runFull_rec stop
    (fun st r =>
      (∀ u ∈ r.1, u.segmentLow = st.segmentLow ∨ st.segmentLow + st.sieveSize * 30 ≤ u.segmentLow)
      ∧ (r.2.segmentLow = st.segmentLow ∨ st.segmentLow + st.sieveSize * 30 ≤ r.2.segmentLow))
    ?_ ?_ st
  · intro st h1 h2 ih
    have hlow : (advanceSeg st).segmentLow = st.segmentLow + st.sieveSize * 30 := by
      simp only [advanceSeg, NUMBERS_PER_BYTE]
    have hsz : (advanceSeg st).sieveSize = st.sieveSize := rfl
    constructor
    · intro u hu
      rcases List.mem_cons.mp hu with rfl | hu
      · exact Or.inl rfl
      · rcases ih.1 u hu with h | h
        · right; rw [hlow] at h; omega
        · right; rw [hlow, hsz] at h; omega
    · show (runFull stop (advanceSeg st)).2.segmentLow = st.segmentLow ∨ _ ≤
        (runFull stop (advanceSeg st)).2.segmentLow
      rcases ih.2 with h | h
      · right; rw [hlow] at h; omega
      · right; rw [hlow, hsz] at h; omega
  · intro st h
    exact ⟨by simp, Or.inl rfl⟩

theorem runFull_last_origin (stop : ℕ) (st : SegState) (hinv : windowInvariant st) :
    (runFull stop st).2 = st ∨
    ∃ prev : SegState, prev.segmentHigh < stop ∧ windowInvariant prev ∧
      (runFull stop st).2 = advanceSeg prev := by
  refine runFull_rec stop
    (fun st r => windowInvariant st →
      (r.2 = st ∨ ∃ prev : SegState, prev.segmentHigh < stop ∧ windowInvariant prev ∧
        r.2 = advanceSeg prev))
    ?_ ?_ st hinv
  · intro st h1 h2 ih hi
    have hadv : windowInvariant (advanceSeg st) := by
      simp only [windowInvariant, advanceSeg, NUMBERS_PER_BYTE] at hi ⊢
      omega
    rcases ih hadv with h | ⟨prev, hp1, hp2, hp3⟩
    · exact Or.inr ⟨st, h1, hi, h⟩
    · exact Or.inr ⟨prev, hp1, hp2, hp3⟩
  · intro st h hi
    exact Or.inl rfl

theorem runFull_coverage (stop : ℕ) (st : SegState) (m : ℕ) (hle : st.segmentLow ≤ m) :
    (∃ u ∈ (runFull stop st).1, u.segmentLow ≤ m ∧ m < u.segmentLow + u.sieveSize * 30)
    ∨ (runFull stop st).2.segmentLow ≤ m := by
  refine runFull_rec stop
    (fun st r => st.segmentLow ≤ m →
      ((∃ u ∈ r.1, u.segmentLow ≤ m ∧ m < u.segmentLow + u.sieveSize * 30)
       ∨ r.2.segmentLow ≤ m))
    ?_ ?_ st hle
  · intro st h1 h2 ih hi
    by_cases hcase : m < st.segmentLow + st.sieveSize * 30
    · exact Or.inl ⟨st, List.mem_cons_self st _, hi, hcase⟩
    · have hadv : (advanceSeg st).segmentLow ≤ m := by
        simp only [advanceSeg, NUMBERS_PER_BYTE]
        omega
      rcases ih hadv with ⟨u, hu, hm⟩ | h
      · exact Or.inl ⟨u, List.mem_cons_of_mem st hu, hm⟩
      · exact Or.inr h
  · intro st h hi
    exact Or.inr hi

/-! ## Buffer pipeline lemmas -/

theorem preSieveStep_length (doIt : ℕ → ℕ → Buffer) (L start : ℕ) (st : SegState)
    (hlen : (doIt st.segmentLow st.sieveSize).length = st.sieveSize) :
    (preSieveStep doIt L start st).length = st.sieveSize := by
  simp only [preSieveStep]
  split_ifs <;> simp [hlen]

theorem preSieveStep_far (doIt : ℕ → ℕ → Buffer) (L start : ℕ) (st : SegState)
    (h : start < st.segmentLow) :
    preSieveStep doIt L start st = doIt st.segmentLow st.sieveSize := by
  simp only [preSieveStep]
  rw [if_neg (by omega)]

theorem preSieveStep_getD_pos (doIt : ℕ → ℕ → Buffer) (L start : ℕ) (st : SegState)
    (h : st.segmentLow ≤ start) (b : ℕ) (hb : b ≠ 0) :
    (preSieveStep doIt L start st).getD b 0 = (doIt st.segmentLow st.sieveSize).getD b 0 := by
  simp only [preSieveStep]
  rw [if_pos h, getD_set_other _ _ _ _ (by omega)]
  split_ifs with h2
  · rw [getD_set_other _ _ _ _ (by omega)]
  · rfl

theorem preSieveStep_byte0_reset (doIt : ℕ → ℕ → Buffer) (L start : ℕ) (st : SegState)
    (h : st.segmentLow ≤ start) (hL : start ≤ L)
    (hlen : (doIt st.segmentLow st.sieveSize).length = st.sieveSize) (hsz : 0 < st.sieveSize) :
    (preSieveStep doIt L start st).getD 0 0
      = 255 &&& (255 <<< lowMaskIdx (getByteRemainder start)) := by
  simp only [preSieveStep]
  rw [if_pos h, if_pos hL]
  rw [getD_set_self _ _ _ (by simpa [hlen] using hsz)]
  rw [getD_set_self _ _ _ (by simpa [hlen] using hsz)]

theorem preSieveStep_byte0_noreset (doIt : ℕ → ℕ → Buffer) (L start : ℕ) (st : SegState)
    (h : st.segmentLow ≤ start) (hL : L < start)
    (hlen : (doIt st.segmentLow st.sieveSize).length = st.sieveSize) (hsz : 0 < st.sieveSize) :
    (preSieveStep doIt L start st).getD 0 0
      = ((doIt st.segmentLow st.sieveSize).getD 0 0)
        &&& (255 <<< lowMaskIdx (getByteRemainder start)) := by
  simp only [preSieveStep]
  rw [if_pos h, if_neg (by omega)]
  rw [getD_set_self _ _ _ (by simpa [hlen] using hsz)]

theorem byte0_mask_testBit (x start : ℕ) (i : Fin 8) :
    (x &&& (255 <<< lowMaskIdx (getByteRemainder start))).testBit i.val
      = (x.testBit i.val && decide (getByteRemainder start ≤ bitValues i)) := by
  have hr := gBR_bounds start
  have hk := lowMaskIdx_le8 (getByteRemainder start) (by omega)
  rw [Nat.testBit_land]
  congr 1
  rw [shift_mask_testBit _ hk i.val i.isLt, decide_eq_decide]
  exact lowMaskIdx_spec (getByteRemainder start) (by omega) i

theorem sieveSegmentBuf_length (doIt : ℕ → ℕ → Buffer) (crossOff : ℕ → ℕ → Buffer → Buffer)
    (L start : ℕ) (st : SegState)
    (hDlen : ∀ low n, (doIt low n).length = n)
    (hClen : ∀ low n buf, (crossOff low n buf).length = buf.length) :
    (sieveSegmentBuf doIt crossOff L start st).length = st.sieveSize := by
  unfold sieveSegmentBuf
  rw [hClen, preSieveStep_length _ _ _ _ (hDlen _ _)]

/-- The per-segment characterization: after pre-sieve (with its first-byte
handling) and the cascade, a bit stays set exactly when its number is at least
`start` and is crossed off by neither band.  Holds for the segment that reaches
down to `start` and for any segment past `start`. -/
theorem segBuf_bit_iff (doIt : ℕ → ℕ → Buffer) (crossOff : ℕ → ℕ → Buffer → Buffer)
    (L start stop : ℕ)
    (h7 : 7 ≤ start) (hL23 : L ≤ 23)
    (hDlen : ∀ low n, (doIt low n).length = n)
    (hDbit : ∀ low n, ∀ b < n, ∀ i : Fin 8,
      (((doIt low n).getD b 0).testBit i.val = true ↔
        ¬ bandComposite 0 L (low + b * NUMBERS_PER_BYTE + bitValues i)))
    (hCbit : ∀ low n buf, ∀ b : ℕ, ∀ i : Fin 8,
      (((crossOff low n buf).getD b 0).testBit i.val = true ↔
        ((buf.getD b 0).testBit i.val = true ∧
          ¬ bandComposite L (isqrt stop) (low + b * NUMBERS_PER_BYTE + bitValues i))))
    (st : SegState) (hsz : 0 < st.sieveSize)
    (hfirst : st.segmentLow = start - getByteRemainder start ∨ start < st.segmentLow)
    (b : ℕ) (hb : b < st.sieveSize) (i : Fin 8) :
    ((sieveSegmentBuf doIt crossOff L start st).getD b 0).testBit i.val = true ↔
      (start ≤ st.segmentLow + b * NUMBERS_PER_BYTE + bitValues i
       ∧ ¬ bandComposite 0 L (st.segmentLow + b * NUMBERS_PER_BYTE + bitValues i)
       ∧ ¬ bandComposite L (isqrt stop) (st.segmentLow + b * NUMBERS_PER_BYTE + bitValues i)) := by
  have hv := bitValues_bounds i
  have hrem := gBR_bounds start
  have hnpb : NUMBERS_PER_BYTE = 30 := rfl
  unfold sieveSegmentBuf
  rw [hCbit]
  have main : ((preSieveStep doIt L start st).getD b 0).testBit i.val = true ↔
      (start ≤ st.segmentLow + b * NUMBERS_PER_BYTE + bitValues i
       ∧ ¬ bandComposite 0 L (st.segmentLow + b * NUMBERS_PER_BYTE + bitValues i)) := by
    rcases hfirst with hlow0 | hfar
    · -- the segment that reaches down to start
      have hlow_le : st.segmentLow ≤ start := by rw [hlow0]; exact Nat.sub_le _ _
      by_cases hb0 : b = 0
      · subst hb0
        by_cases hreset : start ≤ L
        · -- start small enough: first byte reset to 0xff, then masked
          have hstart_eq : getByteRemainder start = start := by
            rw [gBR_def]; split <;> omega
          have hzero : st.segmentLow = 0 := by omega
          rw [preSieveStep_byte0_reset doIt L start st hlow_le hreset (hDlen _ _) hsz]
          rw [byte0_mask_testBit, testBit_255 i.val i.isLt, Bool.true_and, hstart_eq, hzero]
          have hnprime : ¬ bandComposite 0 L (bitValues i) :=
            fun hband => hband.1 (bitValues_prime i)
          simp [hnprime]
        · -- start above the pre-sieve limit: pattern byte masked
          rw [preSieveStep_byte0_noreset doIt L start st hlow_le (by omega) (hDlen _ _) hsz]
          rw [byte0_mask_testBit, Bool.and_eq_true, hDbit _ _ 0 hsz]
          have harith : (getByteRemainder start ≤ bitValues i
              ↔ start ≤ st.segmentLow + 0 * NUMBERS_PER_BYTE + bitValues i) := by
            have := gBR_le start (by omega)
            constructor <;> intro <;> omega
          rw [decide_eq_true_iff, harith]
          exact and_comm
      · -- a later byte: the number is past start regardless
        have hge : start ≤ st.segmentLow + b * NUMBERS_PER_BYTE + bitValues i := by
          have hb1 : 1 ≤ b := by omega
          have hmul : 30 ≤ b * NUMBERS_PER_BYTE := by
            rw [hnpb]; omega
          omega
        rw [preSieveStep_getD_pos doIt L start st hlow_le b hb0, hDbit _ _ b hb]
        simp [hge]
    · -- a segment entirely past start
      have hge : start ≤ st.segmentLow + b * NUMBERS_PER_BYTE + bitValues i := by omega
      rw [preSieveStep_far doIt L start st hfar, hDbit _ _ b hb]
      simp [hge]
  rw [main]
  exact and_assoc

theorem initialState_low (start sz : ℕ) :
    (initialState start sz).segmentLow = start - getByteRemainder start := rfl

theorem initialState_size (start sz : ℕ) : (initialState start sz).sieveSize = sz := rfl

theorem initialState_inv (start sz : ℕ) : windowInvariant (initialState start sz) := rfl

theorem finalResize_low (stop : ℕ) (st : SegState) :
    (finalResize stop st).segmentLow = st.segmentLow := rfl

theorem finalResize_size (stop : ℕ) (st : SegState) :
    (finalResize stop st).sieveSize
      = ((stop - getByteRemainder stop) - st.segmentLow) / NUMBERS_PER_BYTE + 1 := rfl

theorem finalResize_inv (stop : ℕ) (st : SegState) : windowInvariant (finalResize stop st) := rfl

theorem advanceSeg_low (st : SegState) :
    (advanceSeg st).segmentLow = st.segmentLow + st.sieveSize * NUMBERS_PER_BYTE := rfl

theorem finalEmit_low (doIt : ℕ → ℕ → Buffer) (crossOff : ℕ → ℕ → Buffer → Buffer)
    (L start stop : ℕ) (st0 : SegState) :
    (finalEmit doIt crossOff L start stop st0).low
      = (runFull stop st0).2.segmentLow := rfl

theorem finalEmit_len (doIt : ℕ → ℕ → Buffer) (crossOff : ℕ → ℕ → Buffer → Buffer)
    (L start stop : ℕ) (st0 : SegState) :
    (finalEmit doIt crossOff L start stop st0).len
      = (finalResize stop (runFull stop st0).2).sieveSize := rfl

/-- Bits of the emitted final buffer: within the final length, a bit is the
pre-mask bit, additionally forced to an offset not exceeding `stop`'s byte
remainder when it sits in the last meaningful byte. -/
theorem finalEmit_bit (doIt : ℕ → ℕ → Buffer) (crossOff : ℕ → ℕ → Buffer → Buffer)
    (L start stop : ℕ) (st0 : SegState)
    (hDlen : ∀ low n, (doIt low n).length = n)
    (hClen : ∀ low n buf, (crossOff low n buf).length = buf.length)
    (b : ℕ) (hb : b < (finalResize stop (runFull stop st0).2).sieveSize) (i : Fin 8) :
    ((finalEmit doIt crossOff L start stop st0).buf.getD b 0).testBit i.val = true ↔
      (((finalPreMask doIt crossOff L start stop st0).getD b 0).testBit i.val = true
       ∧ (b = (finalResize stop (runFull stop st0).2).sieveSize - 1 →
           bitValues i ≤ getByteRemainder stop)) := by
  have hrem := gBR_bounds stop
  have hk := upMaskIdx_le8 (getByteRemainder stop) (by omega)
  have hlen : (finalPreMask doIt crossOff L start stop st0).length
      = (finalResize stop (runFull stop st0).2).sieveSize :=
    sieveSegmentBuf_length _ _ _ _ _ hDlen hClen
  simp only [finalEmit, finalPreMask] at *
  rw [getD_append_left _ _ _ (by simp only [List.length_set]; omega)]
  by_cases hbl : b = (finalResize stop (runFull stop st0).2).sieveSize - 1
  · subst hbl
    rw [getD_set_self _ _ _ (by omega)]
    rw [Nat.testBit_land, upmask_testBit _ hk i.val i.isLt, Bool.and_eq_true,
      decide_eq_true_iff]
    rw [upMaskIdx_spec (getByteRemainder stop) (by omega) i]
    simp
  · rw [getD_set_other _ _ _ _ (by omega)]
    simp [hbl]

theorem finalEmit_pad (doIt : ℕ → ℕ → Buffer) (crossOff : ℕ → ℕ → Buffer → Buffer)
    (L start stop : ℕ) (st0 : SegState)
    (hDlen : ∀ low n, (doIt low n).length = n)
    (hClen : ∀ low n buf, (crossOff low n buf).length = buf.length)
    (j : ℕ) (hj : (finalResize stop (runFull stop st0).2).sieveSize ≤ j) :
    (finalEmit doIt crossOff L start stop st0).buf.getD j 0 = 0 := by
  have hlen : (finalPreMask doIt crossOff L start stop st0).length
      = (finalResize stop (runFull stop st0).2).sieveSize :=
    sieveSegmentBuf_length _ _ _ _ _ hDlen hClen
  simp only [finalEmit, finalPreMask] at *
  rw [getD_append_right _ _ _ (by simp only [List.length_set]; omega)]
  exact getD_replicate_zero _ _

/-- Geometry of the final segment: the loop's exit state is 30-aligned, lies at
or below `stop`'s block base, and the resized byte length spans exactly up to
that block. -/
theorem final_geometry (start stop sz : ℕ) (h7 : 7 ≤ start) (hss : start ≤ stop) :
    (runFull stop (initialState start sz)).2.segmentLow % 30 = 0
    ∧ (runFull stop (initialState start sz)).2.segmentLow ≤ stop - getByteRemainder stop
    ∧ (finalResize stop (runFull stop (initialState start sz)).2).sieveSize * 30
        = (stop - getByteRemainder stop) - (runFull stop (initialState start sz)).2.segmentLow
          + 30 := by
  have h2s : 2 ≤ start := by omega
  have h2p : 2 ≤ stop := by omega
  have hmod0 : (initialState start sz).segmentLow % 30 = 0 := by
    rw [initialState_low]
    exact sub_gBR_mod start h2s
  have hmod := (runFull_mod30 stop (initialState start sz) hmod0).2
  have hle : (runFull stop (initialState start sz)).2.segmentLow
      ≤ stop - getByteRemainder stop := by
    rcases runFull_last_origin stop (initialState start sz) (initialState_inv start sz) with
      hl | ⟨prev, hph, hpinv, hpeq⟩
    · rw [hl, initialState_low]
      refine mult30_le_sub_gBR _ _ (sub_gBR_mod start h2s) h2p ?_
      have hb := gBR_bounds start
      omega
    · refine mult30_le_sub_gBR _ _ hmod h2p ?_
      rw [hpeq, advanceSeg_low, show NUMBERS_PER_BYTE = 30 from rfl]
      simp only [windowInvariant, NUMBERS_PER_BYTE] at hpinv
      omega
  refine ⟨hmod, hle, ?_⟩
  rw [finalResize_size]
  have hmods : (stop - getByteRemainder stop) % 30 = 0 := sub_gBR_mod stop h2p
  have hnpb : NUMBERS_PER_BYTE = 30 := rfl
  rw [hnpb]
  omega

/-! ## Claim C1 -/

/-- C1: For every valid input (`7 ≤ start ≤ stop`, `stop ≤ 2^64 − 10·2^32`,
sieve size and pre-sieve limit in range), the union of the numbers whose bits
remain set across all segments emitted by `sieveSegment` and `finish` equals
exactly the set of prime numbers in `[start, stop]`, assuming the pre-sieve and
tier collaborators satisfy their contracts: they clear exactly the bits of
composites with a prime factor in their band (`(0, preSieveLimit]` for the
pre-sieve pattern, `(preSieveLimit, sqrtStop]` for the tier cascade). -/
theorem sieve_emits_exactly_primes
    (start stop L sz : ℕ) (doIt : ℕ → ℕ → Buffer) (crossOff : ℕ → ℕ → Buffer → Buffer)
    (h7 : 7 ≤ start) (hss : start ≤ stop)
    (hstop : stop ≤ 2 ^ 64 - 10 * 2 ^ 32)
    (hsz : 1024 ≤ sz) (hL13 : 13 ≤ L) (hL23 : L ≤ 23)
    (hDlen : ∀ low n, (doIt low n).length = n)
    (hDbit : ∀ low n, ∀ b < n, ∀ i : Fin 8,
      (((doIt low n).getD b 0).testBit i.val = true ↔
        ¬ bandComposite 0 L (low + b * NUMBERS_PER_BYTE + bitValues i)))
    (hClen : ∀ low n buf, (crossOff low n buf).length = buf.length)
    (hCbit : ∀ low n buf, ∀ b : ℕ, ∀ i : Fin 8,
      (((crossOff low n buf).getD b 0).testBit i.val = true ↔
        ((buf.getD b 0).testBit i.val = true ∧
          ¬ bandComposite L (isqrt stop) (low + b * NUMBERS_PER_BYTE + bitValues i))))
    (n : ℕ) :
    (∃ e ∈ finishEmits doIt crossOff L start stop (initialState start sz), isCandidate e n)
      ↔ (n.Prime ∧ start ≤ n ∧ n ≤ stop) := by
  have hnpb : NUMBERS_PER_BYTE = 30 := rfl
  have hremS := gBR_bounds start
  have hremP := gBR_bounds stop
  have hsz0 : 0 < (initialState start sz).sieveSize := by rw [initialState_size]; omega
  have hsizes := runFull_sizes stop (initialState start sz)
  have hmod0 : (initialState start sz).segmentLow % 30 = 0 := by
    rw [initialState_low]; exact sub_gBR_mod start (by omega)
  have hmods := runFull_mod30 stop (initialState start sz) hmod0
  have hinvs := runFull_inv stop (initialState start sz) (initialState_inv start sz)
  have hhighs := runFull_mem_high stop (initialState start sz)
  have hff := runFull_first_or_far stop (initialState start sz)
  have hgeo := final_geometry start stop sz h7 hss
  have hfsz1 : 1 ≤ (finalResize stop (runFull stop (initialState start sz)).2).sieveSize := by
    have := hgeo.2.2; omega
  -- any emitted window state is the one reaching down to start, or past start
  have hfirst_full : ∀ u ∈ (runFull stop (initialState start sz)).1,
      u.segmentLow = start - getByteRemainder start ∨ start < u.segmentLow := by
    intro u hu
    rcases hff.1 u hu with h | h
    · rw [initialState_low] at h; exact Or.inl h
    · rw [initialState_low, initialState_size] at h
      right; omega
  have hfirst_last : (runFull stop (initialState start sz)).2.segmentLow
        = start - getByteRemainder start
      ∨ start < (runFull stop (initialState start sz)).2.segmentLow := by
    rcases hff.2 with h | h
    · rw [initialState_low] at h; exact Or.inl h
    · rw [initialState_low, initialState_size] at h
      right; omega
  constructor
  · rintro ⟨e, he, b, hb, i, hn, hbit⟩
    have hv := bitValues_bounds i
    rcases List.mem_append.mp he with hmap | hfin
    · -- a full segment
      rcases List.mem_map.mp hmap with ⟨u, hu, rfl⟩
      have husz : u.sieveSize = sz := by rw [hsizes.2 u hu, initialState_size]
      have hblt : b < u.sieveSize := hb
      have hiff := segBuf_bit_iff doIt crossOff L start stop h7 hL23 hDlen hDbit hCbit
        u (by omega) (hfirst_full u hu) b hblt i
      have hkey := hiff.mp hbit
      have hinvu := hinvs.1 u hu
      have hhigh := hhighs u hu
      simp only [windowInvariant, NUMBERS_PER_BYTE] at hinvu
      have hnstop : n ≤ stop := by
        rw [hn, hnpb]
        show u.segmentLow + b * 30 + bitValues i ≤ stop
        omega
      have hstartn : start ≤ n := by rw [hn]; exact hkey.1
      refine ⟨prime_of_no_band L stop n (by omega) hnstop ?_ ?_, hstartn, hnstop⟩
      · rw [hn]; exact hkey.2.1
      · rw [hn]; exact hkey.2.2
    · -- the final segment
      have hefin : e = finalEmit doIt crossOff L start stop (initialState start sz) := by
        simpa using hfin
      subst hefin
      have hblt : b < (finalResize stop (runFull stop (initialState start sz)).2).sieveSize := hb
      have hfbit := (finalEmit_bit doIt crossOff L start stop (initialState start sz)
        hDlen hClen b hblt i).mp hbit
      have hiff := segBuf_bit_iff doIt crossOff L start stop h7 hL23 hDlen hDbit hCbit
        (finalResize stop (runFull stop (initialState start sz)).2) (by omega)
        (by rw [finalResize_low]; exact hfirst_last) b hblt i
      have hkey := hiff.mp hfbit.1
      rw [finalResize_low] at hkey
      have hlowe : (finalEmit doIt crossOff L start stop (initialState start sz)).low
          = (runFull stop (initialState start sz)).2.segmentLow := rfl
      have hnstop : n ≤ stop := by
        by_cases hlastb :
            b = (finalResize stop (runFull stop (initialState start sz)).2).sieveSize - 1
        · have hvrem := hfbit.2 hlastb
          rw [hn, hlowe, hnpb]
          have hmul := hgeo.2.2
          have hgle : getByteRemainder stop ≤ stop := gBR_le stop (by omega)
          omega
        · rw [hn, hlowe, hnpb]
          have hmul := hgeo.2.2
          have hgle : getByteRemainder stop ≤ stop := gBR_le stop (by omega)
          have hble : b + 1 ≤ (finalResize stop (runFull stop (initialState start sz)).2).sieveSize - 1 := by
            omega
          omega
      have hstartn : start ≤ n := by rw [hn, hlowe]; exact hkey.1
      refine ⟨prime_of_no_band L stop n (by omega) hnstop ?_ ?_, hstartn, hnstop⟩
      · rw [hn, hlowe]; exact hkey.2.1
      · rw [hn, hlowe]; exact hkey.2.2
  · rintro ⟨hp, hstart, hstop2⟩
    have hn7 : 7 ≤ n := by omega
    have hcop : Nat.Coprime n 30 := prime_coprime30 n hp hn7
    obtain ⟨i, hi⟩ := gBR_offset_of_coprime n hcop
    have hv := bitValues_bounds i
    have hgn := gBR_bounds n
    have hgle : getByteRemainder n ≤ n := gBR_le n (by omega)
    have hmn : n = (n - getByteRemainder n) + bitValues i := by omega
    have hm30 : (n - getByteRemainder n) % 30 = 0 := sub_gBR_mod n (by omega)
    have hmlow : (initialState start sz).segmentLow ≤ n - getByteRemainder n := by
      rw [initialState_low]
      refine mult30_le_sub_gBR _ _ (sub_gBR_mod start (by omega)) (by omega) ?_
      omega
    have hmtop : n - getByteRemainder n ≤ stop - getByteRemainder stop := by
      refine mult30_le_sub_gBR _ _ hm30 (by omega) ?_
      omega
    rcases runFull_coverage stop (initialState start sz) (n - getByteRemainder n) hmlow with
      ⟨u, hu, hul, hur⟩ | hlastm
    · -- the number lies in a full segment
      have husz : u.sieveSize = sz := by rw [hsizes.2 u hu, initialState_size]
      have humod : u.segmentLow % 30 = 0 := hmods.1 u hu
      have hdm : ((n - getByteRemainder n) - u.segmentLow) % 30 = 0 := by omega
      have hbm : u.segmentLow + ((n - getByteRemainder n) - u.segmentLow) / 30 * 30
          = n - getByteRemainder n := by omega
      have hblt : ((n - getByteRemainder n) - u.segmentLow) / 30 < u.sieveSize := by omega
      have hiff := segBuf_bit_iff doIt crossOff L start stop h7 hL23 hDlen hDbit hCbit
        u (by omega) (hfirst_full u hu) (((n - getByteRemainder n) - u.segmentLow) / 30) hblt i
      have hpos : u.segmentLow + ((n - getByteRemainder n) - u.segmentLow) / 30 * NUMBERS_PER_BYTE
          + bitValues i = n := by
        rw [hnpb]; omega
      refine ⟨⟨u.segmentLow, u.sieveSize, sieveSegmentBuf doIt crossOff L start u⟩,
        List.mem_append_left _ (List.mem_map.mpr ⟨u, hu, rfl⟩),
        ((n - getByteRemainder n) - u.segmentLow) / 30, hblt, i, by rw [hpos], ?_⟩
      refine hiff.mpr ⟨?_, ?_, ?_⟩
      · rw [hpos]; exact hstart
      · rw [hpos]; exact fun hband => hband.1 hp
      · rw [hpos]; exact fun hband => hband.1 hp
    · -- the number lies in the final segment
      have hmul := hgeo.2.2
      have hlastle := hgeo.2.1
      have hlastmod := hgeo.1
      have hdm : ((n - getByteRemainder n)
          - (runFull stop (initialState start sz)).2.segmentLow) % 30 = 0 := by omega
      have hbm : (runFull stop (initialState start sz)).2.segmentLow
          + ((n - getByteRemainder n)
             - (runFull stop (initialState start sz)).2.segmentLow) / 30 * 30
          = n - getByteRemainder n := by omega
      have hgles : getByteRemainder stop ≤ stop := gBR_le stop (by omega)
      have hblt : ((n - getByteRemainder n)
          - (runFull stop (initialState start sz)).2.segmentLow) / 30
          < (finalResize stop (runFull stop (initialState start sz)).2).sieveSize := by omega
      have hiff := segBuf_bit_iff doIt crossOff L start stop h7 hL23 hDlen hDbit hCbit
        (finalResize stop (runFull stop (initialState start sz)).2) (by omega)
        (by rw [finalResize_low]; exact hfirst_last)
        (((n - getByteRemainder n) - (runFull stop (initialState start sz)).2.segmentLow) / 30)
        hblt i
      rw [finalResize_low] at hiff
      have hpos : (runFull stop (initialState start sz)).2.segmentLow
          + ((n - getByteRemainder n)
             - (runFull stop (initialState start sz)).2.segmentLow) / 30 * NUMBERS_PER_BYTE
          + bitValues i = n := by
        rw [hnpb]; omega
      have hpre := hiff.mpr ⟨by rw [hpos]; exact hstart,
        by rw [hpos]; exact fun hband => hband.1 hp,
        by rw [hpos]; exact fun hband => hband.1 hp⟩
      refine ⟨finalEmit doIt crossOff L start stop (initialState start sz),
        List.mem_append_right _ (by simp),
        ((n - getByteRemainder n) - (runFull stop (initialState start sz)).2.segmentLow) / 30,
        hblt, i, by rw [finalEmit_low, hpos], ?_⟩
      refine (finalEmit_bit doIt crossOff L start stop (initialState start sz)
        hDlen hClen _ hblt i).mpr ⟨hpre, ?_⟩
      intro hlastb
      -- in the last meaningful byte: the offset may not exceed stop's remainder
      rw [hlastb] at hbm
      omega

theorem doItPattern_length (limit low n : ℕ) : (doItPattern limit low n).length = n := by
  simp [doItPattern]

theorem doItPattern_bit (limit low n : ℕ) (b : ℕ) (hb : b < n) (i : Fin 8) :
    ((doItPattern limit low n).getD b 0).testBit i.val = true ↔
      ¬ bandComposite 0 limit (low + b * NUMBERS_PER_BYTE + bitValues i) := by
  unfold doItPattern
  rw [List.getD_eq_getElem?_getD, List.getElem?_map, List.getElem?_range hb]
  rw [show (some b).map (fun b =>
      byteOfPred fun i =>
        decide (¬ bandComposite 0 limit (low + b * NUMBERS_PER_BYTE + bitValues i)))
    = some (byteOfPred fun i =>
        decide (¬ bandComposite 0 limit (low + b * NUMBERS_PER_BYTE + bitValues i)))
    from rfl]
  rw [show (some (byteOfPred fun i =>
        decide (¬ bandComposite 0 limit (low + b * NUMBERS_PER_BYTE + bitValues i)))).getD 0
    = byteOfPred fun i =>
        decide (¬ bandComposite 0 limit (low + b * NUMBERS_PER_BYTE + bitValues i))
    from rfl]
  rw [byteOfPred_testBit]
  exact decide_eq_true_iff

theorem crossOffId_length (low n : ℕ) (buf : Buffer) :
    (crossOffId low n buf).length = buf.length := rfl

theorem crossOffId_bit (L S : ℕ) (hLS : S ≤ L) (low n : ℕ) (buf : Buffer) (b : ℕ) (i : Fin 8) :
    ((crossOffId low n buf).getD b 0).testBit i.val = true ↔
      ((buf.getD b 0).testBit i.val = true
       ∧ ¬ bandComposite L S (low + b * NUMBERS_PER_BYTE + bitValues i)) := by
  unfold crossOffId
  simp [bandComposite_empty L S _ hLS]

/-- Witness for C1 at the spec's own scenario `start = 7, stop = 31` (no tier is
needed there, so the cascade crosses off nothing). -/
theorem sieve_emits_exactly_primes_witness :
    (∃ e ∈ finishEmits (doItPattern 13) crossOffId 13 7 31 (initialState 7 1024),
        isCandidate e 29) ↔ (Nat.Prime 29 ∧ 7 ≤ 29 ∧ 29 ≤ 31) :=
  sieve_emits_exactly_primes 7 31 13 1024 (doItPattern 13) crossOffId
    (by norm_num) (by norm_num) (by norm_num) (by norm_num) (by norm_num) (by norm_num)
    (doItPattern_length 13)
    (doItPattern_bit 13)
    crossOffId_length
    (fun low n buf b i => crossOffId_bit 13 (isqrt 31)
      (by
        have h : ¬ (14 ≤ Nat.sqrt 31) := fun hc => by
          have h2 := Nat.le_sqrt.mp hc
          norm_num at h2
        simp only [isqrt]
        omega)
      low n buf b i)
    29

/-! ## Claim C3 -/

/-- C3: After `finish` processes the final segment, for every `stop` value:
every bit still set in the emitted buffer represents a number ≤ `stop`; the
upper-bound mask on the last meaningful byte keeps a bit exactly when the
bit was set before masking and its offset does not exceed `stop`'s byte
remainder (so it clears no number ≤ `stop`, also when the remainder lies beyond
all 8 offsets); and every byte from the final length onward is zero. -/
theorem final_segment_upper_bound (start stop L sz : ℕ)
    (doIt : ℕ → ℕ → Buffer) (crossOff : ℕ → ℕ → Buffer → Buffer)
    (h7 : 7 ≤ start) (hss : start ≤ stop) (hsz : 1 ≤ sz)
    (hDlen : ∀ low n, (doIt low n).length = n)
    (hClen : ∀ low n buf, (crossOff low n buf).length = buf.length) :
    (∀ n, isCandidate (finalEmit doIt crossOff L start stop (initialState start sz)) n →
       n ≤ stop)
    ∧ (∀ i : Fin 8,
        ((finalEmit doIt crossOff L start stop (initialState start sz)).buf.getD
            ((finalResize stop (runFull stop (initialState start sz)).2).sieveSize - 1)
            0).testBit i.val
          = ((((finalPreMask doIt crossOff L start stop (initialState start sz)).getD
                ((finalResize stop (runFull stop (initialState start sz)).2).sieveSize - 1)
                0).testBit i.val)
             && decide (bitValues i ≤ getByteRemainder stop)))
    ∧ (∀ j, (finalEmit doIt crossOff L start stop (initialState start sz)).len ≤ j →
        (finalEmit doIt crossOff L start stop (initialState start sz)).buf.getD j 0 = 0) := by
  have hnpb : NUMBERS_PER_BYTE = 30 := rfl
  have hremP := gBR_bounds stop
  have hgeo := final_geometry start stop sz h7 hss
  have hmul := hgeo.2.2
  have hlastle := hgeo.2.1
  have hfsz1 : 1 ≤ (finalResize stop (runFull stop (initialState start sz)).2).sieveSize := by
    omega
  have hgles : getByteRemainder stop ≤ stop := gBR_le stop (by omega)
  refine ⟨?_, ?_, ?_⟩
  · rintro n ⟨b, hb, i, hn, hbit⟩
    have hv := bitValues_bounds i
    have hblt : b < (finalResize stop (runFull stop (initialState start sz)).2).sieveSize := hb
    have hfbit := (finalEmit_bit doIt crossOff L start stop (initialState start sz)
      hDlen hClen b hblt i).mp hbit
    have hlowe : (finalEmit doIt crossOff L start stop (initialState start sz)).low
        = (runFull stop (initialState start sz)).2.segmentLow := rfl
    by_cases hlastb :
        b = (finalResize stop (runFull stop (initialState start sz)).2).sieveSize - 1
    · have hvrem := hfbit.2 hlastb
      rw [hn, hlowe, hnpb]
      omega
    · rw [hn, hlowe, hnpb]
      omega
  · intro i
    have hk := upMaskIdx_le8 (getByteRemainder stop) (by omega)
    have hlen : (finalPreMask doIt crossOff L start stop (initialState start sz)).length
        = (finalResize stop (runFull stop (initialState start sz)).2).sieveSize :=
      sieveSegmentBuf_length _ _ _ _ _ hDlen hClen
    simp only [finalEmit, finalPreMask] at *
    rw [getD_append_left _ _ _ (by simp only [List.length_set]; omega)]
    rw [getD_set_self _ _ _ (by omega)]
    rw [Nat.testBit_land, upmask_testBit _ hk i.val i.isLt]
    congr 1
    rw [decide_eq_decide]
    exact upMaskIdx_spec (getByteRemainder stop) (by omega) i
  · intro j hj
    exact finalEmit_pad doIt crossOff L start stop (initialState start sz) hDlen hClen j hj

theorem doItOnes_length (low n : ℕ) : (doItOnes low n).length = n := by
  simp [doItOnes]

/-- Witness for C3 at `start = 7, stop = 31`: no candidate above `stop`, and the
very first padding byte reads zero. -/
theorem final_segment_upper_bound_witness :
    (isCandidate (finalEmit doItOnes crossOffId 19 7 31 (initialState 7 1024)) 32 →
      (32 : ℕ) ≤ 31)
    ∧ (finalEmit doItOnes crossOffId 19 7 31 (initialState 7 1024)).buf.getD
        (finalEmit doItOnes crossOffId 19 7 31 (initialState 7 1024)).len 0 = 0 :=
  ⟨(final_segment_upper_bound 7 31 19 1024 doItOnes crossOffId
      (by norm_num) (by norm_num) (by norm_num) doItOnes_length crossOffId_length).1 32,
   (final_segment_upper_bound 7 31 19 1024 doItOnes crossOffId
      (by norm_num) (by norm_num) (by norm_num) doItOnes_length crossOffId_length).2.2
     _ le_rfl⟩

/-! ## Claim C4 -/

theorem preSieveStep_byte0_ge (doIt : ℕ → ℕ → Buffer) (L start : ℕ) (st : SegState)
    (h : st.segmentLow ≤ start)
    (hlen : (doIt st.segmentLow st.sieveSize).length = st.sieveSize) (hsz : 0 < st.sieveSize)
    (i : Fin 8) :
    ((preSieveStep doIt L start st).getD 0 0).testBit i.val = true →
      getByteRemainder start ≤ bitValues i := by
  by_cases hres : start ≤ L
  · rw [preSieveStep_byte0_reset doIt L start st h hres hlen hsz, byte0_mask_testBit,
      Bool.and_eq_true, decide_eq_true_iff]
    exact fun hc => hc.2
  · rw [preSieveStep_byte0_noreset doIt L start st h (by omega) hlen hsz, byte0_mask_testBit,
      Bool.and_eq_true, decide_eq_true_iff]
    exact fun hc => hc.2

/-- C4: After the pre-sieve step of the first segment (the segment whose low
bound is at or below `start`), every bit of the first byte representing a
number below `start` is cleared; consequently — given that the tier cascade
only ever clears bits — no number below `start` is a candidate in any emitted
segment. -/
theorem no_candidate_below_start (start stop L sz : ℕ)
    (doIt : ℕ → ℕ → Buffer) (crossOff : ℕ → ℕ → Buffer → Buffer)
    (h7 : 7 ≤ start) (hss : start ≤ stop) (hsz : 1024 ≤ sz)
    (hDlen : ∀ low n, (doIt low n).length = n)
    (hClen : ∀ low n buf, (crossOff low n buf).length = buf.length)
    (hCmono : ∀ low n buf b, ∀ i : Fin 8,
      ((crossOff low n buf).getD b 0).testBit i.val = true →
        (buf.getD b 0).testBit i.val = true) :
    (∀ i : Fin 8, (initialState start sz).segmentLow + bitValues i < start →
       ((preSieveStep doIt L start (initialState start sz)).getD 0 0).testBit i.val = false)
    ∧ (∀ e ∈ finishEmits doIt crossOff L start stop (initialState start sz),
        ∀ n, isCandidate e n → start ≤ n) := by
  have hnpb : NUMBERS_PER_BYTE = 30 := rfl
  have hremS := gBR_bounds start
  have hgle : getByteRemainder start ≤ start := gBR_le start (by omega)
  have hsz0 : 0 < (initialState start sz).sieveSize := by rw [initialState_size]; omega
  have hlow0 : (initialState start sz).segmentLow ≤ start := Nat.sub_le _ _
  have hsizes := runFull_sizes stop (initialState start sz)
  have hff := runFull_first_or_far stop (initialState start sz)
  -- a byte-0 candidate of the start segment is at least start
  have hbyte0 : ∀ st : SegState, st.segmentLow ≤ start → 0 < st.sieveSize → ∀ i : Fin 8,
      ((preSieveStep doIt L start st).getD 0 0).testBit i.val = true →
        getByteRemainder start ≤ bitValues i := fun st h hp i =>
    preSieveStep_byte0_ge doIt L start st h (hDlen _ _) hp i
  constructor
  · intro i hlt
    rw [initialState_low] at hlt
    by_contra hc
    rw [Bool.not_eq_false] at hc
    have := hbyte0 _ hlow0 hsz0 i hc
    omega
  · -- candidates of any emitted segment are at least start
    have hseg : ∀ st : SegState, 0 < st.sieveSize →
        (st.segmentLow = start - getByteRemainder start ∨ start < st.segmentLow) →
        ∀ b, ∀ i : Fin 8,
        ((sieveSegmentBuf doIt crossOff L start st).getD b 0).testBit i.val = true →
          start ≤ st.segmentLow + b * NUMBERS_PER_BYTE + bitValues i := by
      intro st hp hfirst b i hbit
      have hv := bitValues_bounds i
      have hpre : ((preSieveStep doIt L start st).getD b 0).testBit i.val = true :=
        hCmono _ _ _ b i hbit
      rcases hfirst with hfl | hfar
      · by_cases hb0 : b = 0
        · subst hb0
          have := hbyte0 st (by rw [hfl]; exact Nat.sub_le _ _) hp i hpre
          rw [hfl, hnpb]
          omega
        · rw [hfl, hnpb]
          have hb1 : 1 ≤ b := by omega
          have hmul : 30 ≤ b * 30 := by omega
          omega
      · rw [hnpb]; omega
    intro e he n hcand
    rcases hcand with ⟨b, hb, i, hn, hbit⟩
    rcases List.mem_append.mp he with hmap | hfin
    · rcases List.mem_map.mp hmap with ⟨u, hu, rfl⟩
      have husz : u.sieveSize = sz := by rw [hsizes.2 u hu, initialState_size]
      have hufirst : u.segmentLow = start - getByteRemainder start ∨ start < u.segmentLow := by
        rcases hff.1 u hu with h | h
        · rw [initialState_low] at h; exact Or.inl h
        · rw [initialState_low, initialState_size] at h; right; omega
      rw [hn]
      exact hseg u (by omega) hufirst b i hbit
    · have hefin : e = finalEmit doIt crossOff L start stop (initialState start sz) := by
        simpa using hfin
      subst hefin
      have hgeo := final_geometry start stop sz h7 hss
      have hfsz1 : 1 ≤ (finalResize stop (runFull stop (initialState start sz)).2).sieveSize := by
        have := hgeo.2.2; omega
      have hblt : b < (finalResize stop (runFull stop (initialState start sz)).2).sieveSize := hb
      have hfbit := (finalEmit_bit doIt crossOff L start stop (initialState start sz)
        hDlen hClen b hblt i).mp hbit
      have hlfirst : (finalResize stop (runFull stop (initialState start sz)).2).segmentLow
            = start - getByteRemainder start
          ∨ start < (finalResize stop (runFull stop (initialState start sz)).2).segmentLow := by
        rw [finalResize_low]
        rcases hff.2 with h | h
        · rw [initialState_low] at h; exact Or.inl h
        · rw [initialState_low, initialState_size] at h; right; omega
      have hlowe : (finalEmit doIt crossOff L start stop (initialState start sz)).low
          = (finalResize stop (runFull stop (initialState start sz)).2).segmentLow := rfl
      rw [hn, hlowe]
      exact hseg _ (by omega) hlfirst b i hfbit.1

/-- Witness for C4 at `start = 11, stop = 31`: bit 0 of the first byte (the
number 7, below `start`) is cleared, and candidates of the final segment are at
least `start`. -/
theorem no_candidate_below_start_witness :
    ((preSieveStep doItOnes 19 11 (initialState 11 1024)).getD 0 0).testBit
        (0 : Fin 8).val = false
    ∧ (isCandidate (finalEmit doItOnes crossOffId 19 11 31 (initialState 11 1024)) 7 →
        (11 : ℕ) ≤ 7) :=
  ⟨(no_candidate_below_start 11 31 19 1024 doItOnes crossOffId
      (by norm_num) (by norm_num) (by norm_num) doItOnes_length crossOffId_length
      (fun _ _ _ _ _ h => h)).1 0 (by decide),
   (no_candidate_below_start 11 31 19 1024 doItOnes crossOffId
      (by norm_num) (by norm_num) (by norm_num) doItOnes_length crossOffId_length
      (fun _ _ _ _ _ h => h)).2
     (finalEmit doItOnes crossOffId 19 11 31 (initialState 11 1024))
     (List.mem_append_right _ (by simp)) 7⟩

/-! ## Claim C10 -/

/-- C10: If `start` is at most the pre-sieve limit, the pre-sieve step resets
the entire first byte of the segment buffer to 0xff before applying the
lower-bound mask: whatever pattern the pre-sieve collaborator wrote (even one
that crossed off the small primes 7..31 as multiples of pre-sieved primes), bit
`i` of the first byte ends up set exactly when its number `bitValues i` is at
least `start`. -/
theorem presieve_resets_first_byte (start L sz : ℕ) (doIt : ℕ → ℕ → Buffer)
    (h7 : 7 ≤ start) (hstartL : start ≤ L) (hL23 : L ≤ 23) (hsz : 1 ≤ sz)
    (hDlen : ∀ low n, (doIt low n).length = n) (i : Fin 8) :
    ((preSieveStep doIt L start (initialState start sz)).getD 0 0).testBit i.val
      = decide (start ≤ bitValues i) := by
  have hstart_eq : getByteRemainder start = start := by
    rw [gBR_def]; split <;> omega
  have hlow : (initialState start sz).segmentLow ≤ start := Nat.sub_le _ _
  rw [preSieveStep_byte0_reset doIt L start _ hlow hstartL (hDlen _ _)
    (by rw [initialState_size]; omega)]
  rw [byte0_mask_testBit, testBit_255 i.val i.isLt, Bool.true_and, hstart_eq]

/-- Witness for C10: with a pattern that crosses off every multiple of a prime
up to 19 — including the primes 7..19 themselves as their own multiples — the
bit of 7 at `start = 7` is nevertheless reported set. -/
theorem presieve_resets_first_byte_witness :
    ((preSieveStep (doItPattern 19) 19 7 (initialState 7 1024)).getD 0 0).testBit
        (0 : Fin 8).val = decide (7 ≤ bitValues 0) :=
  presieve_resets_first_byte 7 19 1024 (doItPattern 19)
    (by norm_num) (by norm_num) (by norm_num) (by norm_num) (doItPattern_length 19) 0

/-! ## Claim C5 -/

/-- C5: Tier construction is conditional and cascading — the small tier exists
iff `sqrtStop` exceeds the pre-sieve limit, the medium tier iff additionally it
exceeds the small tier's effective limit, the big tier iff additionally it
exceeds the medium tier's effective limit; and if `sqrtStop` does not exceed
the pre-sieve limit, no tier object is constructed at all. -/
theorem tier_cascade_conditional (sqrtStop preSieveLimit : ℕ) (b : TierBehavior)
    (s : AllocState)
    (hes : b.esFails = false) (hem : b.emFails = false) (heb : b.ebFails = false) :
    ∃ t : Tiers, (initEratAlgorithms sqrtStop preSieveLimit b s).2 = Except.ok t
      ∧ (t.eratSmall.isSome ↔ preSieveLimit < sqrtStop)
      ∧ (t.eratMedium.isSome ↔ preSieveLimit < sqrtStop ∧ b.esLimit < sqrtStop)
      ∧ (t.eratBig.isSome ↔
          preSieveLimit < sqrtStop ∧ b.esLimit < sqrtStop ∧ b.emLimit < sqrtStop)
      ∧ (sqrtStop ≤ preSieveLimit → t = ⟨none, none, none⟩) := by
  unfold initEratAlgorithms
  rw [hes, hem, heb]
  by_cases h1 : preSieveLimit < sqrtStop
  · rw [if_pos h1]
    by_cases h2 : b.esLimit < sqrtStop
    · rw [if_pos h2]
      by_cases h3 : b.emLimit < sqrtStop
      · rw [if_pos h3]
        exact ⟨_, rfl, by simp [h1], by simp [h1, h2], by simp [h1, h2, h3],
          fun hc => absurd hc (by omega)⟩
      · rw [if_neg h3]
        exact ⟨_, rfl, by simp [h1], by simp [h1, h2], by simp [h3],
          fun hc => absurd hc (by omega)⟩
    · rw [if_neg h2]
      exact ⟨_, rfl, by simp [h1], by simp [h2], by simp [h2],
        fun hc => absurd hc (by omega)⟩
  · rw [if_neg h1]
    exact ⟨_, rfl, by simp [h1], by simp [h1], by simp [h1], fun _ => rfl⟩

/-- Witness for C5: with `sqrtStop = 100`, a pre-sieve limit of 19 and small and
medium effective limits 10 and 50, all three tiers are constructed. -/
theorem tier_cascade_conditional_witness :
    ∃ t : Tiers,
      (initEratAlgorithms 100 19 ⟨false, 10, false, 50, false⟩ ⟨[], 0⟩).2 = Except.ok t
      ∧ (t.eratSmall.isSome ↔ (19 : ℕ) < 100)
      ∧ (t.eratMedium.isSome ↔ (19 : ℕ) < 100 ∧ (10 : ℕ) < 100)
      ∧ (t.eratBig.isSome ↔ (19 : ℕ) < 100 ∧ (10 : ℕ) < 100 ∧ (50 : ℕ) < 100)
      ∧ ((100 : ℕ) ≤ 19 → t = ⟨none, none, none⟩) :=
  tier_cascade_conditional 100 19 ⟨false, 10, false, 50, false⟩ ⟨[], 0⟩ rfl rfl rfl

/-! ## Claim C6 -/

/-- C6: If constructing any tier fails, every tier already constructed in that
attempt is released before the failure propagates out: after a failed
`initEratAlgorithms`, the set of live allocations is exactly what it was before
the call — construction is all-or-nothing and leaks nothing. -/
theorem tier_construction_all_or_nothing (sqrtStop preSieveLimit : ℕ) (b : TierBehavior)
    (s : AllocState)
    (herr : (initEratAlgorithms sqrtStop preSieveLimit b s).2 = Except.error ()) :
    (initEratAlgorithms sqrtStop preSieveLimit b s).1.live = s.live := by
  have herase2 : ∀ (a c : ℕ) (l : List ℕ), a ≠ c → (a :: c :: l).erase c = a :: l := by
    intro a c l h
    rw [List.erase_cons, if_neg (by simpa using h), List.erase_cons_head]
  unfold initEratAlgorithms at herr ⊢
  split_ifs at herr ⊢ <;> first
    | rfl
    | exact (show (s.next :: s.live).erase s.next = s.live from by
        rw [List.erase_cons_head])
    | exact (show (((s.next + 1) :: s.next :: s.live).erase s.next).erase (s.next + 1)
          = s.live from by
        rw [herase2 (s.next + 1) s.next s.live (by omega), List.erase_cons_head])
    | simp at herr

/-- Witness for C6: the medium tier's constructor fails after the small tier was
built; the failure surfaces with the pre-existing allocation [5] intact and the
small tier's allocation released. -/
theorem tier_construction_all_or_nothing_witness :
    (initEratAlgorithms 100 19 ⟨false, 10, true, 0, false⟩ ⟨[5], 7⟩).2 = Except.error ()
    ∧ (initEratAlgorithms 100 19 ⟨false, 10, true, 0, false⟩ ⟨[5], 7⟩).1.live = [5] :=
  ⟨rfl, tier_construction_all_or_nothing 100 19 ⟨false, 10, true, 0, false⟩ ⟨[5], 7⟩ rfl⟩

/-! ## Claim C2 -/

/-- C2 counterexample: the input `(start, stop, sieveSizeKiB, preSieveLimit) =
(7, 7, 5000, 13)` violates the stated precondition `sieveSizeKiB ≤ 4096`, yet
the constructor succeeds (the size is clamped, not rejected) — so it is not the
case that every precondition violation fails with a configuration error. -/
theorem ctor_accepts_oversized_sieve :
    4096 < 5000
    ∧ ∃ t, (ctor 7 7 5000 13 ⟨false, 0, false, 0, false⟩ ⟨[], 0⟩).2 = Except.ok t := by
  refine ⟨by norm_num, ?_⟩
  have hsq : isqrt 7 ≤ 13 := by
    simp only [isqrt]
    have h := Nat.sqrt_le_self 7
    omega
  unfold ctor
  rw [if_neg (by norm_num), if_neg (by norm_num)]
  have hinit : initEratAlgorithms (isqrt 7) 13 ⟨false, 0, false, 0, false⟩ ⟨[], 0⟩
      = (⟨[], 0⟩, Except.ok ⟨none, none, none⟩) := by
    unfold initEratAlgorithms
    rw [if_neg (by omega)]
  rw [hinit]
  exact ⟨_, rfl⟩

/-- C2 amended: of the stated preconditions, the constructor enforces exactly
`start ≥ 7` and `start ≤ stop` — inputs violating one of these fail with a
configuration error and leave the allocation state untouched; an out-of-range
`sieveSizeKiB` is clamped into `[1, 4096]` rather than rejected, and the `stop`
and `preSieveLimit` bounds are unchecked documented preconditions. -/
theorem ctor_config_error_iff (start stop sieveSize preSieveLimit : ℕ) (b : TierBehavior)
    (s : AllocState) :
    ((∃ m, (ctor start stop sieveSize preSieveLimit b s).2
        = Except.error (CtorError.config m))
      ↔ (start < 7 ∨ stop < start))
    ∧ ((start < 7 ∨ stop < start) →
        (ctor start stop sieveSize preSieveLimit b s).1 = s) := by
  unfold ctor
  by_cases h1 : start < 7
  · rw [if_pos h1]
    exact ⟨⟨fun _ => Or.inl h1, fun _ => ⟨_, rfl⟩⟩, fun _ => rfl⟩
  · rw [if_neg h1]
    by_cases h2 : stop < start
    · rw [if_pos h2]
      exact ⟨⟨fun _ => Or.inr h2, fun _ => ⟨_, rfl⟩⟩, fun _ => rfl⟩
    · rw [if_neg h2]
      rcases hinit : initEratAlgorithms (isqrt stop) preSieveLimit b s with ⟨s1, r⟩
      cases r with
      | error e =>
        refine ⟨⟨?_, fun h => by omega⟩, fun h => by omega⟩
        rintro ⟨m, hm⟩
        simp at hm
      | ok tiers =>
        refine ⟨⟨?_, fun h => by omega⟩, fun h => by omega⟩
        rintro ⟨m, hm⟩
        simp at hm

/-- Witness for C2's amended claim: `start = 3` is rejected with a configuration
error and no allocation takes place. -/
theorem ctor_config_error_iff_witness :
    (∃ m, (ctor 3 10 16 19 ⟨false, 0, false, 0, false⟩ ⟨[], 0⟩).2
        = Except.error (CtorError.config m))
    ∧ (ctor 3 10 16 19 ⟨false, 0, false, 0, false⟩ ⟨[], 0⟩).1
        = (⟨[], 0⟩ : AllocState) :=
  ⟨(ctor_config_error_iff 3 10 16 19 ⟨false, 0, false, 0, false⟩ ⟨[], 0⟩).1.mpr
      (Or.inl (by norm_num)),
   (ctor_config_error_iff 3 10 16 19 ⟨false, 0, false, 0, false⟩ ⟨[], 0⟩).2
      (Or.inl (by norm_num))⟩

/-! ## Claim C7 -/

/-- C7: the window invariant `segmentHigh = segmentLow + sieveSizeBytes·30 + 1`
holds after construction, is preserved by every full-segment advance of the
finish loop (each of which increases `segmentLow` by exactly
`sieveSizeBytes·30`), and holds after the final-segment resize; `segmentLow`
never decreases. -/
theorem segment_window_invariant (start stop sz : ℕ) (st : SegState) :
    windowInvariant (initialState start sz)
    ∧ ((advanceSeg st).segmentLow = st.segmentLow + st.sieveSize * NUMBERS_PER_BYTE)
    ∧ (windowInvariant st → windowInvariant (advanceSeg st))
    ∧ windowInvariant (finalResize stop st)
    ∧ (windowInvariant st →
        (∀ u ∈ (runFull stop st).1, windowInvariant u)
        ∧ windowInvariant (runFull stop st).2)
    ∧ st.segmentLow ≤ (runFull stop st).2.segmentLow
    ∧ (finalResize stop (runFull stop st).2).segmentLow
        = (runFull stop st).2.segmentLow := by
  refine ⟨initialState_inv start sz, advanceSeg_low st, ?_, finalResize_inv stop st,
    fun h => runFull_inv stop st h, ?_, finalResize_low stop _⟩
  · intro h
    simp only [windowInvariant, advanceSeg, NUMBERS_PER_BYTE] at h ⊢
    omega
  · rcases (runFull_first_or_far stop st).2 with h | h
    · omega
    · omega

/-- Witness for C7 at `start = 7, stop = 100, sieve size 1024` bytes. -/
theorem segment_window_invariant_witness :
    windowInvariant (initialState 7 1024)
    ∧ windowInvariant (advanceSeg (initialState 7 1024))
    ∧ windowInvariant (finalResize 100 (initialState 7 1024))
    ∧ (initialState 7 1024).segmentLow ≤ (runFull 100 (initialState 7 1024)).2.segmentLow :=
  ⟨(segment_window_invariant 7 100 1024 (initialState 7 1024)).1,
   (segment_window_invariant 7 100 1024 (initialState 7 1024)).2.2.1
     (segment_window_invariant 7 100 1024 (initialState 7 1024)).1,
   (segment_window_invariant 7 100 1024 (initialState 7 1024)).2.2.2.1,
   (segment_window_invariant 7 100 1024 (initialState 7 1024)).2.2.2.2.2.1⟩

/-! ## Claim C8 -/

/-- C8: the constructor's sieve-size normalization — round to a power of two,
clamp to [1, 4096] KiB, convert to bytes — always stores a power of two between
1024 and 4194304 bytes. -/
theorem sieve_size_normalized_power_of_two (sieveSize : ℕ) :
    ∃ k, sieveSizeBytes sieveSize = 2 ^ k ∧ 10 ≤ k ∧ k ≤ 22
      ∧ 1024 ≤ sieveSizeBytes sieveSize ∧ sieveSizeBytes sieveSize ≤ 4194304 := by
  have hbig : ∀ k, sieveSizeBytes sieveSize = 2 ^ k → 10 ≤ k → k ≤ 22 →
      1024 ≤ sieveSizeBytes sieveSize ∧ sieveSizeBytes sieveSize ≤ 4194304 := by
    intro k hk h10 h22
    rw [hk]
    constructor
    · calc (1024 : ℕ) = 2 ^ 10 := by norm_num
      _ ≤ 2 ^ k := Nat.pow_le_pow_right (by norm_num) h10
    · calc (2 : ℕ) ^ k ≤ 2 ^ 22 := Nat.pow_le_pow_right (by norm_num) h22
      _ = 4194304 := by norm_num
  unfold sieveSizeBytes getInBetween floorPowerOf2
  by_cases h0 : sieveSize = 0
  · rw [if_pos h0]
    refine ⟨10, by norm_num, by norm_num, by norm_num, ?_⟩
    have hh := hbig 10
    unfold sieveSizeBytes getInBetween floorPowerOf2 at hh
    rw [if_pos h0] at hh
    exact hh (by norm_num) (by norm_num) (by norm_num)
  · rw [if_neg h0]
    have hj1 : 1 ≤ 2 ^ Nat.log2 sieveSize := Nat.one_le_two_pow
    rw [if_neg (by omega)]
    by_cases hlarge : 4096 < 2 ^ Nat.log2 sieveSize
    · rw [if_pos hlarge]
      refine ⟨22, by norm_num, by norm_num, le_rfl, ?_⟩
      have hh := hbig 22
      unfold sieveSizeBytes getInBetween floorPowerOf2 at hh
      rw [if_neg h0, if_neg (by omega), if_pos hlarge] at hh
      exact hh (by norm_num) (by norm_num) (by norm_num)
    · rw [if_neg hlarge]
      have h12 : Nat.log2 sieveSize ≤ 12 := by
        by_contra hc
        have h13 : 2 ^ 13 ≤ 2 ^ Nat.log2 sieveSize :=
          Nat.pow_le_pow_right (by norm_num) (by omega)
        norm_num at h13
        omega
      have hpow : 2 ^ Nat.log2 sieveSize * 1024 = 2 ^ (Nat.log2 sieveSize + 10) := by
        rw [pow_add]
        norm_num
      refine ⟨Nat.log2 sieveSize + 10, hpow, by omega, by omega, ?_⟩
      have hh := hbig (Nat.log2 sieveSize + 10)
      unfold sieveSizeBytes getInBetween floorPowerOf2 at hh
      rw [if_neg h0, if_neg (by omega), if_neg hlarge] at hh
      exact hh hpow (by omega) (by omega)

/-! ## Claim C9 -/

/-- C9 counterexample: at `n = 32` the byte-remainder helper returns 2, which
is neither one of the 8 representable offsets nor strictly between two of
them — refuting that every result lands on or strictly between offsets. -/
theorem byte_remainder_off_offsets_at_32 :
    getByteRemainder 32 = 2
    ∧ ¬ ((∃ i : Fin 8, bitValues i = 2)
         ∨ ∃ i : Fin 8, ∃ j : Fin 8, bitValues i < 2 ∧ 2 < bitValues j) := by
  decide

/-- C9 amended: the helper returns `n mod 30` with remainders 0 and 1 folded
upward by 30, so the result always lies in [2, 31]; it lands exactly on one of
the 8 representable offsets, or strictly between two of them, or strictly below
the smallest offset 7 (the case of residues 2..6). -/
theorem byte_remainder_range (n : ℕ) :
    getByteRemainder n = (if n % 30 ≤ 1 then n % 30 + 30 else n % 30)
    ∧ 2 ≤ getByteRemainder n ∧ getByteRemainder n ≤ 31
    ∧ ((∃ i : Fin 8, bitValues i = getByteRemainder n)
       ∨ (∃ i : Fin 8, ∃ j : Fin 8,
            bitValues i < getByteRemainder n ∧ getByteRemainder n < bitValues j)
       ∨ getByteRemainder n < 7) := by
  refine ⟨gBR_def n, (gBR_bounds n).1, (gBR_bounds n).2, ?_⟩
  have key : ∀ r < 30,
      ((∃ i : Fin 8, bitValues i = (if r ≤ 1 then r + 30 else r))
       ∨ (∃ i : Fin 8, ∃ j : Fin 8, bitValues i < (if r ≤ 1 then r + 30 else r)
            ∧ (if r ≤ 1 then r + 30 else r) < bitValues j)
       ∨ (if r ≤ 1 then r + 30 else r) < 7) := by decide
  rw [gBR_def]
  exact key (n % 30) (Nat.mod_lt _ (by norm_num))

end soe
